import Mathlib

/-!
Verification of the session layer of the step-motor-control repository.

The definitions below are a shallow embedding of the Python source:
* `notificationHandler` / `handlerLoop` embed
  `BLEStepperClient._notification_handler` (v3/ble_common.py, lines 156-179):
  append the decoded chunk to `message_buffer`, repeatedly slice off the text
  before the first newline, strip it, deliver non-empty lines to
  `on_status_received`, and on an exception from the callback clear the buffer.
* `utf8Run` / `decodeStrict` / `decodeIgnore` embed `bytes.decode('utf-8')`
  (strict) and `bytes.decode('utf-8', errors='ignore')` as used in the handler.
* `pyValidate` embeds `BLEStepperClient._validate_command` (lines 146-154),
  `send_command` embeds `BLEStepperClient.send_command` (lines 123-144).
* `MotorCommands.*` embed the command helper class (lines 187-225).
* `extract_angle_from_message` embeds the function of the same name
  (lines 231-241).
* `send_to_all` / `handle_client_cleanup` embed
  `ArduinoTCPServer.send_to_all` and the removal in
  `ArduinoTCPServer.handle_client` (test/wifi_communication_test/pc_tcp_server.py).

Strings are modelled as `List Char`, byte strings as `List Nat`.
-/

/-- Python `str.isspace` on a single character: the whitespace set used by
`str.strip()` with no argument (ASCII whitespace, the C1 controls 28-31,
NEL, NBSP and the Unicode space separators). -/
def pyIsSpace (c : Char) : Bool :=
  [9, 10, 11, 12, 13, 28, 29, 30, 31, 32, 133, 160, 5760, 8192, 8193, 8194,
   8195, 8196, 8197, 8198, 8199, 8200, 8201, 8202, 8232, 8233, 8239, 8287,
   12288].contains c.toNat

/-- Python `str.strip()`: drop leading and trailing whitespace. -/
def pyStrip (l : List Char) : List Char :=
  ((l.dropWhile pyIsSpace).reverse.dropWhile pyIsSpace).reverse

/-- Python `str.lower()` (ASCII case mapping; the repository's commands and
status lines are ASCII). -/
def pyLower (l : List Char) : List Char :=
  l.map Char.toLower

/-- Python `self.message_buffer.index('\n')`: position of the first newline.
Only used under the loop guard `'\n' in self.message_buffer`. -/
def pyIndexNl : List Char → Nat
  | [] => 0
  | c :: cs => if c = '\n' then 0 else pyIndexNl cs + 1

/-- The body of the `while '\n' in self.message_buffer` loop of
`_notification_handler`, parameterised by the subscriber callback
`on_status_received` (`Except.error` models the callback raising).
Returns the final `message_buffer`, the messages passed to the callback in
order, and the exception (if any) that was caught by the handler's outer
`except`, which clears the buffer. -/
def handlerLoop (cb : List Char → Except Unit Unit) (buf : List Char) :
    List Char × List (List Char) × Option Unit :=
  if h : '\n' ∈ buf then
    let i := pyIndexNl buf
    let msg := pyStrip (buf.take i)
    let rest := buf.drop (i + 1)
    if msg.isEmpty then handlerLoop cb rest
    else
      match cb msg with
      | .error e => ([], [msg], some e)
      | .ok _ => let r := handlerLoop cb rest; (r.1, msg :: r.2.1, r.2.2)
  else (buf, [], none)
termination_by buf.length
decreasing_by
  all_goals
    cases buf with
    | nil => simp at h
    | cons a l => simp [List.length_drop]; omega

/-- Specification-side view of a framing pass: the complete (newline
terminated) lines of a buffer, in order, paired with the trailing fragment
that has no terminating newline. -/
def linesRem : List Char → List (List Char) × List Char
  | [] => ([], [])
  | c :: cs =>
    let r := linesRem cs
    if c = '\n' then ([] :: r.1, r.2)
    else
      match r.1 with
      | [] => ([], c :: r.2)
      | l :: ls => ((c :: l) :: ls, r.2)

/-- The messages a framing pass over `buf` produces: each complete line,
stripped, with lines that are empty after stripping dropped. -/
def framedMsgs (buf : List Char) : List (List Char) :=
  ((linesRem buf).1.map pyStrip).filter (fun m => !m.isEmpty)

/-- Sequential delivery of a list of framed messages to the callback,
stopping at the first raised exception (the exception aborts the loop). -/
def dispatchAll (cb : List Char → Except Unit Unit) :
    List (List Char) → List (List Char) × Option Unit
  | [] => ([], none)
  | m :: ms =>
    match cb m with
    | .error e => ([m], some e)
    | .ok _ => let r := dispatchAll cb ms; (m :: r.1, r.2)

theorem linesRem_no_nl {buf : List Char} (h : '\n' ∉ buf) :
    linesRem buf = ([], buf) := by
  induction buf with
  | nil => rfl
  | cons c cs ih =>
    have hc : c ≠ '\n' := fun hc => h (hc ▸ List.mem_cons_self c cs)
    have hcs : '\n' ∉ cs := fun hm => h (List.mem_cons_of_mem c hm)
    simp [linesRem, ih hcs, hc]

theorem linesRem_nl {buf : List Char} (h : '\n' ∈ buf) :
    linesRem buf =
      ((buf.take (pyIndexNl buf)) :: (linesRem (buf.drop (pyIndexNl buf + 1))).1,
       (linesRem (buf.drop (pyIndexNl buf + 1))).2) := by
  induction buf with
  | nil => cases h
  | cons c cs ih =>
    by_cases hc : c = '\n'
    · subst hc
      simp [linesRem, pyIndexNl]
    · have hcs : '\n' ∈ cs := by
        cases List.mem_cons.mp h with
        | inl h1 => exact absurd h1.symm hc
        | inr h2 => exact h2
      have := ih hcs
      simp only [linesRem, pyIndexNl, if_neg hc]
      rw [this]
      simp [List.take, List.drop]

theorem linesRem_rem_no_nl (buf : List Char) : '\n' ∉ (linesRem buf).2 := by
  induction buf with
  | nil => simp [linesRem]
  | cons c cs ih =>
    by_cases hc : c = '\n'
    · subst hc; simpa [linesRem] using ih
    · simp only [linesRem, if_neg hc]
      match h : (linesRem cs).1 with
      | [] =>
        simp only []
        intro hm
        cases List.mem_cons.mp hm with
        | inl h1 => exact hc h1.symm
        | inr h2 => exact ih h2
      | l :: ls => simpa using ih

/-- The handler's while-loop equals the one-shot description: frame every
complete line, strip, drop empties, deliver until the first callback
exception; the buffer keeps the trailing fragment unless an exception was
caught, in which case it is cleared. -/
theorem handlerLoop_eq (cb : List Char → Except Unit Unit) (buf : List Char) :
    handlerLoop cb buf =
      (if ((dispatchAll cb (framedMsgs buf)).2.isSome) then []
       else (linesRem buf).2,
       dispatchAll cb (framedMsgs buf)) := by
  have main : ∀ n buf, List.length buf ≤ n → handlerLoop cb buf =
      (if ((dispatchAll cb (framedMsgs buf)).2.isSome) then []
       else (linesRem buf).2,
       dispatchAll cb (framedMsgs buf)) := by
    intro n
    induction n with
    | zero =>
      intro buf hb
      have : buf = [] := List.eq_nil_of_length_eq_zero (Nat.le_zero.mp hb)
      subst this
      simp [handlerLoop, framedMsgs, linesRem, dispatchAll]
    | succ n ih =>
      intro buf hb
      by_cases h : '\n' ∈ buf
      · have hne : buf ≠ [] := by rintro rfl; cases h
        have hlen : (buf.drop (pyIndexNl buf + 1)).length ≤ n := by
          rw [List.length_drop]
          have : 0 < buf.length := List.length_pos.mpr hne
          omega
        have hrec := ih _ hlen
        rw [handlerLoop.eq_def]
        rw [dif_pos h]
        by_cases hm : (pyStrip (buf.take (pyIndexNl buf))).isEmpty
        · rw [if_pos hm]
          rw [hrec]
          have hfm : framedMsgs buf = framedMsgs (buf.drop (pyIndexNl buf + 1)) := by
            simp only [framedMsgs, linesRem_nl h, List.map_cons, List.filter_cons]
            rw [hm]
            simp
          rw [hfm, linesRem_nl h]
        · rw [if_neg hm]
          have hfm : framedMsgs buf =
              pyStrip (buf.take (pyIndexNl buf)) ::
                framedMsgs (buf.drop (pyIndexNl buf + 1)) := by
            simp only [framedMsgs, linesRem_nl h, List.map_cons, List.filter_cons]
            simp only [Bool.not_eq_true'] at hm
            simp [hm]
          rw [hfm]
          cases hcb : cb (pyStrip (buf.take (pyIndexNl buf))) with
          | error e => simp [dispatchAll, hcb]
          | ok a =>
            simp only [dispatchAll, hcb]
            rw [hrec, linesRem_nl h]
      · rw [handlerLoop.eq_def, dif_neg h]
        have h1 : linesRem buf = ([], buf) := linesRem_no_nl h
        simp [framedMsgs, h1, dispatchAll]
  exact main buf.length buf le_rfl

/-- State of the incremental UTF-8 decoder: the code-point bits accumulated
from the lead byte and any continuation bytes seen so far, the number of
continuation bytes still expected, and the allowed range for the next
continuation byte (UTF-8 restricts the first continuation byte after the
lead bytes E0, ED, F0 and F4). -/
structure Utf8State where
  acc : Nat
  need : Nat
  lo : Nat
  hi : Nat
  deriving DecidableEq, Repr

/-- The decoder state between characters. -/
def utf8Start : Utf8State := ⟨0, 0, 0x80, 0xBF⟩

/-- One byte of UTF-8 decoding: `none` on an invalid byte, otherwise the new
state and the completed character, if this byte completes one. -/
def utf8Step (s : Utf8State) (b : Nat) : Option (Utf8State × Option Char) :=
  if s.need = 0 then
    if b < 0x80 then some (utf8Start, some (Char.ofNat b))
    else if 0xC2 ≤ b ∧ b ≤ 0xDF then some (⟨b - 0xC0, 1, 0x80, 0xBF⟩, none)
    else if b = 0xE0 then some (⟨0, 2, 0xA0, 0xBF⟩, none)
    else if 0xE1 ≤ b ∧ b ≤ 0xEC then some (⟨b - 0xE0, 2, 0x80, 0xBF⟩, none)
    else if b = 0xED then some (⟨13, 2, 0x80, 0x9F⟩, none)
    else if 0xEE ≤ b ∧ b ≤ 0xEF then some (⟨b - 0xE0, 2, 0x80, 0xBF⟩, none)
    else if b = 0xF0 then some (⟨0, 3, 0x90, 0xBF⟩, none)
    else if 0xF1 ≤ b ∧ b ≤ 0xF3 then some (⟨b - 0xF0, 3, 0x80, 0xBF⟩, none)
    else if b = 0xF4 then some (⟨4, 3, 0x80, 0x8F⟩, none)
    else none
  else
    if s.lo ≤ b ∧ b ≤ s.hi then
      if s.need = 1 then some (utf8Start, some (Char.ofNat (s.acc * 64 + (b - 0x80))))
      else some (⟨s.acc * 64 + (b - 0x80), s.need - 1, 0x80, 0xBF⟩, none)
    else none

/-- Run the strict decoder over a byte list from a given state. -/
def utf8Run (s : Utf8State) : List Nat → Option (List Char × Utf8State)
  | [] => some ([], s)
  | b :: bs =>
    (utf8Step s b).bind fun p =>
      (utf8Run p.1 bs).map fun q => (p.2.elim q.1 (· :: q.1), q.2)

/-- Python `bytes.decode('utf-8')`: strict decoding, `none` models the
`UnicodeDecodeError` raised on any invalid or truncated sequence. -/
def decodeStrict (bs : List Nat) : Option (List Char) :=
  match utf8Run utf8Start bs with
  | some (cs, s) => if s.need = 0 then some cs else none
  | none => none

/-- Python `bytes.decode('utf-8', errors='ignore')`: undecodable bytes are
dropped and decoding resumes.  A byte that aborts a partial multi-byte
sequence is re-examined as a lead byte, which yields the same character
output as CPython's error handling (no proper prefix of a multi-byte
sequence can begin a valid one). -/
def utf8RunIgnore (s : Utf8State) : List Nat → List Char
  | [] => []
  | b :: bs =>
    match utf8Step s b with
    | some (s1, some c) => c :: utf8RunIgnore s1 bs
    | some (s1, none) => utf8RunIgnore s1 bs
    | none =>
      if s.need = 0 then utf8RunIgnore utf8Start bs
      else
        match utf8Step utf8Start b with
        | some (s1, some c) => c :: utf8RunIgnore s1 bs
        | some (s1, none) => utf8RunIgnore s1 bs
        | none => utf8RunIgnore utf8Start bs

def decodeIgnore (bs : List Nat) : List Char :=
  utf8RunIgnore utf8Start bs

/-- Modelled from the spec: "a chunk that fails strict UTF-8 decoding is
decoded using a best-effort substitution (invalid byte sequences replaced,
not raising)" — the decoder that substitutes U+FFFD at every error, i.e.
`errors='replace'`, which the spec claims and the source does not use. -/
def utf8RunReplace (s : Utf8State) : List Nat → List Char
  | [] => if s.need = 0 then [] else ['�']
  | b :: bs =>
    match utf8Step s b with
    | some (s1, some c) => c :: utf8RunReplace s1 bs
    | some (s1, none) => utf8RunReplace s1 bs
    | none =>
      if s.need = 0 then '�' :: utf8RunReplace utf8Start bs
      else
        match utf8Step utf8Start b with
        | some (s1, some c) => '�' :: c :: utf8RunReplace s1 bs
        | some (s1, none) => '�' :: utf8RunReplace s1 bs
        | none => '�' :: utf8RunReplace utf8Start bs

def decodeReplace (bs : List Nat) : List Char :=
  utf8RunReplace utf8Start bs

/-- The decode step of `_notification_handler` (lines 158-164): strict
decode inside a `try`; on `UnicodeDecodeError` decode with
`errors='ignore'` and log a warning.  Returns the decoded text and whether
the warning branch was taken. -/
def pyDecode (bs : List Nat) : List Char × Bool :=
  match decodeStrict bs with
  | some cs => (cs, false)
  | none => (decodeIgnore bs, true)

/-- The callback of a subscriber that never raises. -/
def okCb : List Char → Except Unit Unit := fun _ => Except.ok ()

/-- A whole `_notification_handler` call: decode the chunk, append it to the
buffer, run the framing loop with the given subscriber callback.  Returns
((final buffer, delivered messages, caught exception), decode warning). -/
def notificationFeed (cb : List Char → Except Unit Unit) (st : List Char)
    (data : List Nat) : (List Char × List (List Char) × Option Unit) × Bool :=
  (handlerLoop cb (st ++ (pyDecode data).1), (pyDecode data).2)

/-- `_notification_handler` with a non-raising subscriber: the pure framer.
Returns (final buffer, messages produced by this call). -/
def framerFeed (st : List Char) (data : List Nat) :
    List Char × List (List Char) :=
  ((notificationFeed okCb st data).1.1, (notificationFeed okCb st data).1.2.1)

/-- Feeding the same handler a sequence of chunks, threading the buffer. -/
def framerFeedMany (st : List Char) : List (List Nat) → List Char × List (List Char)
  | [] => (st, [])
  | d :: ds =>
    let r := framerFeed st d
    let rs := framerFeedMany r.1 ds
    (rs.1, r.2 ++ rs.2)

/-- ASCII text rendered as the bytes Python would send for it. -/
def bytesOfAscii (s : String) : List Nat :=
  s.data.map Char.toNat




theorem option_map_fst_snd (o : Option (List Char × Utf8State)) :
    o.map (fun q => (q.1, q.2)) = o := by
  cases o <;> simp

theorem utf8Run_append_some {s : Utf8State} {a : List Nat} {cs : List Char}
    {s1 : Utf8State} (h : utf8Run s a = some (cs, s1)) (b : List Nat) :
    utf8Run s (a ++ b) = (utf8Run s1 b).map fun q => (cs ++ q.1, q.2) := by
  induction a generalizing s cs with
  | nil =>
    simp only [utf8Run, Option.some.injEq, Prod.mk.injEq] at h
    obtain ⟨h1, h2⟩ := h
    subst h1
    subst h2
    simp only [List.nil_append]
    exact (option_map_fst_snd _).symm
  | cons x xs ih =>
    simp only [utf8Run, Option.bind_eq_some, Option.map_eq_some'] at h
    obtain ⟨p, hp, q, hq, hpq⟩ := h
    have pe : p.2.elim q.1 (· :: q.1) = cs := congrArg Prod.fst hpq
    have qe : q.2 = s1 := congrArg Prod.snd hpq
    have hq' : utf8Run p.1 xs = some (q.1, s1) := by rw [hq, ← qe]
    simp only [List.cons_append, utf8Run, hp, Option.some_bind, List.append_eq]
    rw [ih hq', Option.map_map]
    cases hb : utf8Run s1 b with
    | none => simp
    | some r =>
      simp only [Option.map_some', Function.comp]
      rw [← pe]
      cases p2 : p.2 with
      | none => simp
      | some c => simp

set_option maxRecDepth 4096 in
theorem utf8Step_need_zero {s s1 : Utf8State} {b : Nat} {oc : Option Char}
    (h : utf8Step s b = some (s1, oc)) (h0 : s1.need = 0) : s1 = utf8Start := by
  by_cases hs : s.need = 0
  · simp only [utf8Step, if_pos hs] at h
    split_ifs at h
    all_goals first
      | (cases h; rfl)
      | (cases h; exact absurd h0 (by simp))
  · simp only [utf8Step, if_neg hs] at h
    split_ifs at h with hrange hone
    · cases h; rfl
    · cases h
      exact absurd h0 (by simp; omega)

theorem utf8Run_start_need_zero {a : List Nat} {cs : List Char} {sf : Utf8State}
    (h : utf8Run utf8Start a = some (cs, sf)) (h0 : sf.need = 0) :
    sf = utf8Start := by
  have main : ∀ (a : List Nat) (s : Utf8State), (s.need = 0 → s = utf8Start) →
      ∀ {cs sf}, utf8Run s a = some (cs, sf) → sf.need = 0 → sf = utf8Start := by
    intro a
    induction a with
    | nil =>
      intro s hs cs sf h h0
      simp only [utf8Run, Option.some.injEq, Prod.mk.injEq] at h
      obtain ⟨h1, h2⟩ := h
      subst h1
      subst h2
      exact hs h0
    | cons x xs ih =>
      intro s hs cs sf h h0
      simp only [utf8Run, Option.bind_eq_some, Option.map_eq_some'] at h
      obtain ⟨p, hp, q, hq, hpq⟩ := h
      have qe : q.2 = sf := congrArg Prod.snd hpq
      have hq' : utf8Run p.1 xs = some (q.1, sf) := by rw [hq, ← qe]
      have hstep : utf8Step s x = some (p.1, p.2) := by rw [hp]
      exact ih p.1 (fun hz => utf8Step_need_zero hstep hz) hq' h0
  exact main a utf8Start (fun _ => rfl) h h0

/-- Concatenating two strictly-decodable byte strings decodes to the
concatenation of their decodings. -/
theorem decodeStrict_append {a b : List Nat} {x y : List Char}
    (ha : decodeStrict a = some x) (hb : decodeStrict b = some y) :
    decodeStrict (a ++ b) = some (x ++ y) := by
  simp only [decodeStrict] at *
  cases hra : utf8Run utf8Start a with
  | none => rw [hra] at ha; cases ha
  | some p =>
    cases p with
    | mk cs s =>
      rw [hra] at ha
      simp only [] at ha
      by_cases hs : s.need = 0
      · rw [if_pos hs] at ha
        have hx : cs = x := by cases ha; rfl
        have hstart : s = utf8Start := utf8Run_start_need_zero hra hs
        cases hrb : utf8Run utf8Start b with
        | none => rw [hrb] at hb; cases hb
        | some q =>
          cases q with
          | mk cs2 s2 =>
            rw [hrb] at hb
            simp only [] at hb
            by_cases hs2 : s2.need = 0
            · rw [if_pos hs2] at hb
              have hy : cs2 = y := by cases hb; rfl
              rw [utf8Run_append_some hra b, hstart, hrb]
              simp only [Option.map_some']
              rw [if_pos hs2, hx, hy]
            · rw [if_neg hs2] at hb; cases hb
      · rw [if_neg hs] at ha; cases ha

theorem dispatchAll_ok (ms : List (List Char)) :
    dispatchAll okCb ms = (ms, none) := by
  induction ms with
  | nil => rfl
  | cons m ms ih => simp [dispatchAll, okCb, ih]

/-- The pure framer (non-raising subscriber) in closed form. -/
theorem handlerLoop_ok_eq (buf : List Char) :
    handlerLoop okCb buf = ((linesRem buf).2, framedMsgs buf, none) := by
  rw [handlerLoop_eq, dispatchAll_ok]
  simp

theorem pyIndexNl_lt {a : List Char} (h : '\n' ∈ a) : pyIndexNl a < a.length := by
  induction a with
  | nil => cases h
  | cons c cs ih =>
    by_cases hc : c = '\n'
    · simp [pyIndexNl, hc]
    · have hcs : '\n' ∈ cs := by
        cases List.mem_cons.mp h with
        | inl h1 => exact absurd h1.symm hc
        | inr h2 => exact h2
      have := ih hcs
      simp only [pyIndexNl, if_neg hc, List.length_cons]
      omega

theorem pyIndexNl_append {a : List Char} (h : '\n' ∈ a) (b : List Char) :
    pyIndexNl (a ++ b) = pyIndexNl a := by
  induction a with
  | nil => cases h
  | cons c cs ih =>
    by_cases hc : c = '\n'
    · simp [pyIndexNl, hc]
    · have hcs : '\n' ∈ cs := by
        cases List.mem_cons.mp h with
        | inl h1 => exact absurd h1.symm hc
        | inr h2 => exact h2
      simp [pyIndexNl, hc, ih hcs]

theorem linesRem_append (a b : List Char) :
    linesRem (a ++ b) =
      ((linesRem a).1 ++ (linesRem ((linesRem a).2 ++ b)).1,
       (linesRem ((linesRem a).2 ++ b)).2) := by
  have main : ∀ n (a : List Char), a.length ≤ n → ∀ b, linesRem (a ++ b) =
      ((linesRem a).1 ++ (linesRem ((linesRem a).2 ++ b)).1,
       (linesRem ((linesRem a).2 ++ b)).2) := by
    intro n
    induction n with
    | zero =>
      intro a ha b
      have : a = [] := List.eq_nil_of_length_eq_zero (Nat.le_zero.mp ha)
      subst this
      simp [linesRem]
    | succ n ih =>
      intro a ha b
      by_cases h : '\n' ∈ a
      · have hab : '\n' ∈ a ++ b := List.mem_append.mpr (Or.inl h)
        have hi := pyIndexNl_lt h
        rw [linesRem_nl hab, linesRem_nl h, pyIndexNl_append h]
        rw [List.take_append_of_le_length (le_of_lt hi)]
        rw [List.drop_append_of_le_length (by omega : pyIndexNl a + 1 ≤ a.length)]
        have hlen : (a.drop (pyIndexNl a + 1)).length ≤ n := by
          rw [List.length_drop]; omega
        rw [ih _ hlen b]
        simp
      · rw [linesRem_no_nl h]
        simp
  exact main a.length a le_rfl b

theorem framedMsgs_append (a b : List Char) :
    framedMsgs (a ++ b) = framedMsgs a ++ framedMsgs ((linesRem a).2 ++ b) := by
  simp [framedMsgs, linesRem_append a b, List.filter_append]

theorem framerFeed_eq (st : List Char) (d : List Nat) :
    framerFeed st d =
      ((linesRem (st ++ (pyDecode d).1)).2, framedMsgs (st ++ (pyDecode d).1)) := by
  simp [framerFeed, notificationFeed, handlerLoop_ok_eq]

theorem decodeStrict_nil : decodeStrict [] = some [] := rfl

theorem decodeStrict_flatten {chunks : List (List Nat)}
    (h : ∀ c ∈ chunks, (decodeStrict c).isSome) :
    (decodeStrict chunks.flatten).isSome := by
  induction chunks with
  | nil => simp [decodeStrict_nil]
  | cons d ds ih =>
    obtain ⟨xd, hxd⟩ := Option.isSome_iff_exists.mp (h d (List.mem_cons_self d ds))
    obtain ⟨xr, hxr⟩ := Option.isSome_iff_exists.mp
      (ih (fun c hc => h c (List.mem_cons_of_mem d hc)))
    rw [List.flatten_cons]
    rw [decodeStrict_append hxd hxr]
    rfl

/-- Feeding strictly-decodable chunks one at a time produces the same final
buffer and the same concatenated message sequence as feeding all their
bytes in one call. -/
theorem framerFeedMany_eq (chunks : List (List Nat)) :
    ∀ st : List Char, '\n' ∉ st → (∀ c ∈ chunks, (decodeStrict c).isSome) →
    framerFeedMany st chunks = framerFeed st chunks.flatten := by
  induction chunks with
  | nil =>
    intro st hst _
    rw [framerFeedMany, framerFeed_eq]
    have hd : pyDecode [] = ([], false) := by simp [pyDecode, decodeStrict_nil]
    rw [show List.flatten ([] : List (List Nat)) = [] from rfl, hd]
    rw [List.append_nil, linesRem_no_nl hst]
    simp [framedMsgs, linesRem_no_nl hst]
  | cons d ds ih =>
    intro st hst h
    obtain ⟨xd, hxd⟩ := Option.isSome_iff_exists.mp (h d (List.mem_cons_self d ds))
    obtain ⟨xr, hxr⟩ := Option.isSome_iff_exists.mp
      (decodeStrict_flatten (fun c hc => h c (List.mem_cons_of_mem d hc)))
    have hpd : pyDecode d = (xd, false) := by simp [pyDecode, hxd]
    have hpdr : pyDecode ds.flatten = (xr, false) := by simp [pyDecode, hxr]
    have hall : pyDecode (d ++ ds.flatten) = (xd ++ xr, false) := by
      simp [pyDecode, decodeStrict_append hxd hxr]
    have hr1 : framerFeed st d =
        ((linesRem (st ++ xd)).2, framedMsgs (st ++ xd)) := by
      rw [framerFeed_eq, hpd]
    have hnl : '\n' ∉ (linesRem (st ++ xd)).2 := linesRem_rem_no_nl _
    rw [framerFeedMany, hr1]
    rw [ih _ hnl (fun c hc => h c (List.mem_cons_of_mem d hc))]
    simp only [framerFeed_eq, List.flatten_cons, hpdr, hall]
    rw [← List.append_assoc]
    rw [linesRem_append (st ++ xd) xr, framedMsgs_append (st ++ xd) xr]

theorem char_toNat_ofNat (n : Nat) (h : n.isValidChar) :
    (Char.ofNat n).toNat = n := by
  simp [Char.ofNat, h, Char.toNat, Char.ofNatAux, UInt32.toNat, BitVec.toNat_ofNatLt]

theorem toLower_toNat_upper (c : Char) (h : 65 ≤ c.toNat) (h2 : c.toNat ≤ 90) :
    (Char.toLower c).toNat = c.toNat + 32 := by
  have hv : (c.toNat + 32).isValidChar := Or.inl (by omega)
  simp only [Char.toLower]
  rw [if_pos ⟨h, h2⟩]
  exact char_toNat_ofNat _ hv

theorem toLower_eq_self (c : Char) (h : ¬ (65 ≤ c.toNat ∧ c.toNat ≤ 90)) :
    Char.toLower c = c := by
  simp only [Char.toLower]
  rw [if_neg h]

/-- Lower-casing never turns a character into whitespace or out of it. -/
theorem pyIsSpace_toLower (c : Char) :
    pyIsSpace (Char.toLower c) = pyIsSpace c := by
  by_cases h : 65 ≤ c.toNat ∧ c.toNat ≤ 90
  · obtain ⟨ha, hb⟩ := h
    have h1 := toLower_toNat_upper c ha hb
    simp only [pyIsSpace, h1, List.contains, List.elem_eq_mem, decide_eq_decide,
      List.mem_cons, List.not_mem_nil, or_false]
    constructor
    · intro hx
      omega
    · intro hx
      omega
  · rw [toLower_eq_self c h]


theorem pyStrip_eq_nil_iff (l : List Char) :
    pyStrip l = [] ↔ ∀ c ∈ l, pyIsSpace c := by
  simp only [pyStrip, List.reverse_eq_nil_iff, List.dropWhile_eq_nil_iff,
    List.mem_reverse]
  constructor
  · intro h c hc
    rcases List.mem_append.mp
        ((List.takeWhile_append_dropWhile (p := pyIsSpace) (l := l)) ▸ hc) with h1 | h2
    · exact List.mem_takeWhile_imp h1
    · exact h c h2
  · intro h c hc
    exact h c ((List.dropWhile_sublist pyIsSpace).subset hc)

theorem pyStrip_cons_head (c : Char) (l : List Char) (h : pyIsSpace c = false) :
    (pyStrip (c :: l)).head? = some c := by
  simp only [pyStrip, List.dropWhile_cons, h]
  rw [if_neg (by simp)]
  rw [List.reverse_cons, List.dropWhile_append]
  by_cases he : (List.dropWhile pyIsSpace l.reverse).isEmpty
  · simp [he, List.dropWhile_cons, h]
  · simp [he]

/-- `BLEStepperClient._validate_command`: reject an empty or all-whitespace
command, otherwise test whether the first character of the lower-cased,
stripped text is one of the known command letters.  `none` models an
uncaught `IndexError` from the `[0]` indexing (it cannot occur: the guard
runs first; see the totality theorem). -/
def pyValidate (command : List Char) : Option Bool :=
  if command.isEmpty || (pyStrip command).isEmpty then some false
  else
    match (pyStrip (pyLower command)).head? with
    | some c => some (['a', 'r', 'z', 's', 'p', 'v', 'h'].contains c)
    | none => none

theorem pyLower_strip_ne_nil {command : List Char}
    (h : ¬ (pyStrip command).isEmpty) : pyStrip (pyLower command) ≠ [] := by
  intro hx
  apply h
  rw [List.isEmpty_iff]
  rw [pyStrip_eq_nil_iff]
  intro c hc
  have := (pyStrip_eq_nil_iff (pyLower command)).mp hx (Char.toLower c)
    (List.mem_map_of_mem Char.toLower hc)
  rwa [pyIsSpace_toLower] at this

/-- When the first character is meaningful, `pyValidate` accepts: the guard
passes and the indexed character is the lower-cased first character. -/
theorem pyValidate_first {c : Char} (rest : List Char)
    (h1 : pyIsSpace c = false)
    (h2 : pyIsSpace (Char.toLower c) = false)
    (h3 : ['a', 'r', 'z', 's', 'p', 'v', 'h'].contains (Char.toLower c) = true) :
    pyValidate (c :: rest) = some true := by
  have hs : ¬ (pyStrip (c :: rest)).isEmpty := by
    rw [List.isEmpty_iff]
    intro hx
    have := (pyStrip_eq_nil_iff _).mp hx c (List.mem_cons_self _ _)
    rw [h1] at this
    cases this
  simp only [pyValidate]
  rw [if_neg (by simp [hs])]
  have hl : pyLower (c :: rest) = Char.toLower c :: pyLower rest := rfl
  rw [hl, pyStrip_cons_head _ _ h2]
  show some (['a', 'r', 'z', 's', 'p', 'v', 'h'].contains c.toLower) = some true
  rw [h3]

/-- `MotorCommands`: encoders for the wire commands.  Python renders the
numeric argument with an f-string; the rendering is abstracted as the
already-formatted text of the number. -/
def absolute_move (numText : List Char) : List Char :=
  'a' :: numText

def relative_move (numText : List Char) : List Char :=
  'r' :: numText

def reset_position : List Char := ['z']

def get_status : List Char := ['s']

def toggle_power_saving : List Char := ['p']

/-- `MotorCommands.set_speed`: `v<level>` for level 1..5, otherwise a
`ValueError` (`Except.error` with the source's message). -/
def set_speed (level : Int) : Except (List Char) (List Char) :=
  if 1 ≤ level ∧ level ≤ 5 then Except.ok ('v' :: (toString level).data)
  else Except.error "速度レベルは1-5の範囲で指定してください".data

def get_help : List Char := ['h']

/-- The fields of `BLEStepperClient` that `send_command` can read or write:
the connection flag, whether `self.client` is set, and the receive buffer. -/
structure BLEClientState where
  is_connected : Bool
  hasClient : Bool
  message_buffer : List Char
  deriving DecidableEq, Repr

/-- `BLEStepperClient.send_command`: reject when not connected, validate,
then write the encoded command to the GATT characteristic (`writeOk` is the
outcome of that external write; an exception from it is caught and turns
into a `False` return).  Returns the state after the call, the boolean
result, and the list of successful transport writes. -/
def send_command (st : BLEClientState) (command : List Char) (writeOk : Bool) :
    BLEClientState × Bool × List (List Char) :=
  if ¬ st.is_connected ∨ ¬ st.hasClient then (st, false, [])
  else
    match pyValidate command with
    | some false => (st, false, [])
    | none => (st, false, [])
    | some true => if writeOk then (st, true, [command]) else (st, false, [])

/-- Python `sep in msg` for a non-empty separator string. -/
def hasSub (sep : List Char) : List Char → Bool
  | [] => sep.isEmpty
  | c :: ms => sep.isPrefixOf (c :: ms) || hasSub sep ms

/-- Python `msg.split(sep)[0]`: the text before the first occurrence of the
separator (the whole text when the separator does not occur). -/
def beforeFirst (sep : List Char) : List Char → List Char
  | [] => []
  | c :: ms => if sep.isPrefixOf (c :: ms) then [] else c :: beforeFirst sep ms

/-- Python `text.split(":")`. -/
def splitOnColon : List Char → List (List Char)
  | [] => [[]]
  | c :: ms =>
    let r := splitOnColon ms
    if c = ':' then [] :: r
    else
      match r with
      | [] => [[c]]
      | f :: rest => (c :: f) :: rest

/-- Python `text.split(":")[-1]`. -/
def pyLastField (l : List Char) : List Char :=
  (splitOnColon l).getLastD []

/-- Digits of a decimal numeral to its value. -/
def digitsToNat (ds : List Char) : Nat :=
  ds.foldl (fun a c => a * 10 + (c.toNat - 48)) 0

def allDigits (ds : List Char) : Bool :=
  ds.all fun c => '0' ≤ c ∧ c ≤ '9'

/-- The digit scan of Python `float(text)` on the numeric texts this
program handles: optional sign, then digits with an optional decimal point
(at least one digit overall).  Returns the signed numerator over the power
of ten of the fractional length; `none` models `ValueError`.  Exponents,
`inf`/`nan` and underscores, which the device's status lines never
contain, are outside the modelled subset. -/
def pyFloatParts (l : List Char) : Option (Int × Nat) :=
  let signed : Int × List Char :=
    match l with
    | '+' :: r => (1, r)
    | '-' :: r => (-1, r)
    | r => (1, r)
  let ip := signed.2.takeWhile (fun c => c ≠ '.')
  let rest := signed.2.dropWhile (fun c => c ≠ '.')
  match rest with
  | [] =>
    if !ip.isEmpty && allDigits ip then some (signed.1 * digitsToNat ip, 1)
    else none
  | '.' :: fp =>
    if (!ip.isEmpty || !fp.isEmpty) && allDigits ip && allDigits fp then
      some (signed.1 * (digitsToNat ip * 10 ^ fp.length + digitsToNat fp),
        10 ^ fp.length)
    else none
  | _ => none

/-- Python `float(text)`: the exact rational value of the parsed decimal. -/
def pyFloat (l : List Char) : Option ℚ :=
  (pyFloatParts l).map fun p => mkRat p.1 p.2

/-- `extract_angle_from_message`: for the first marker (`"deg"`, then
`"°"`) contained in the message, parse the stripped text between the last
colon and the marker; `none` when no marker is present or parsing raises
(the `except` returns `None`). -/
def extract_angle_from_message (message : List Char) : Option ℚ :=
  if hasSub "deg".data message then
    pyFloat (pyStrip (pyLastField (beforeFirst "deg".data message)))
  else if hasSub "°".data message then
    pyFloat (pyStrip (pyLastField (beforeFirst "°".data message)))
  else none

/-- The claim-side reading of `split(":")[-1]`: the maximal suffix that
contains no colon (the text after the last `:`). -/
def suffixNoColon (l : List Char) : List Char :=
  (l.reverse.takeWhile (fun c => c ≠ ':')).reverse

/-- One peer of `ArduinoTCPServer`: its address and whether `sendall` to it
raises (the state of its TCP connection during the broadcast). -/
structure TcpPeer where
  addr : Nat
  sendFails : Bool
  deriving DecidableEq, Repr

/-- `ArduinoTCPServer.send_to_all`: iterate over `self.clients`; a failed
`sendall` is printed and the loop continues.  Returns the addresses written
successfully and the addresses whose write raised.  The method never
mutates `self.clients`. -/
def send_to_all : List TcpPeer → List Nat × List Nat
  | [] => ([], [])
  | p :: ps =>
    let r := send_to_all ps
    if p.sendFails then (r.1, p.addr :: r.2) else (p.addr :: r.1, r.2)

/-- A broadcast as a state transition of the server: `self.clients` before
and after, plus the addresses attempted and delivered.  `send_to_all`
leaves the registry untouched. -/
def broadcastOp (clients : List TcpPeer) :
    List TcpPeer × List Nat × List Nat :=
  (clients, clients.map TcpPeer.addr, (send_to_all clients).1)

/-- The `finally` of `ArduinoTCPServer.handle_client`: rebuild
`self.clients` without the entries of the closed address. -/
def handle_client_cleanup (address : Nat) (clients : List TcpPeer) : List TcpPeer :=
  clients.filter fun c => c.addr ≠ address

theorem splitOnColon_ne_nil (l : List Char) : splitOnColon l ≠ [] := by
  cases l with
  | nil => simp [splitOnColon]
  | cons c ms =>
    simp only [splitOnColon]
    split
    · simp
    · split <;> simp

theorem splitOnColon_no_colon {l : List Char} (h : ':' ∉ l) :
    splitOnColon l = [l] := by
  induction l with
  | nil => rfl
  | cons c ms ih =>
    have hc : c ≠ ':' := fun hc => h (hc ▸ List.mem_cons_self c ms)
    have hcs : ':' ∉ ms := fun hm => h (List.mem_cons_of_mem c hm)
    simp [splitOnColon, hc, ih hcs]

theorem splitOnColon_two {l : List Char} (h : ':' ∈ l) :
    2 ≤ (splitOnColon l).length := by
  induction l with
  | nil => cases h
  | cons c ms ih =>
    by_cases hc : c = ':'
    · subst hc
      have hpos := List.length_pos.mpr (splitOnColon_ne_nil ms)
      have hsp : splitOnColon (':' :: ms) = [] :: splitOnColon ms := by
        simp [splitOnColon]
      rw [hsp, List.length_cons]
      omega
    · have hcs : ':' ∈ ms := by
        cases List.mem_cons.mp h with
        | inl h1 => exact absurd h1.symm hc
        | inr h2 => exact h2
      have h2 := ih hcs
      simp only [splitOnColon, if_neg hc]
      cases hr : splitOnColon ms with
      | nil => exact absurd hr (splitOnColon_ne_nil ms)
      | cons f rest =>
        rw [hr] at h2
        simp only [List.length_cons] at h2 ⊢
        omega

theorem takeWhile_append_one_neg {p : Char → Bool} {a : Char}
    (h : p a = false) (x : List Char) :
    (x ++ [a]).takeWhile p = x.takeWhile p := by
  induction x with
  | nil => simp [List.takeWhile_cons, h]
  | cons c x ih => simp [List.takeWhile_cons, ih]

theorem takeWhile_append_of_bad {p : Char → Bool} {x : List Char}
    (h : ∃ b ∈ x, p b = false) (y : List Char) :
    (x ++ y).takeWhile p = x.takeWhile p := by
  induction x with
  | nil =>
    obtain ⟨b, hb, _⟩ := h
    cases hb
  | cons c x ih =>
    by_cases hpc : p c
    · obtain ⟨b, hb, hpb⟩ := h
      have hbx : b ∈ x := by
        cases List.mem_cons.mp hb with
        | inl h1 => rw [h1] at hpb; rw [hpb] at hpc; cases hpc
        | inr h2 => exact h2
      simp [List.takeWhile_cons, hpc, ih ⟨b, hbx, hpb⟩]
    · simp only [Bool.not_eq_true] at hpc
      simp [List.takeWhile_cons, hpc]

theorem takeWhile_append_of_good {p : Char → Bool} {x : List Char}
    (h : ∀ b ∈ x, p b = true) (y : List Char) :
    (x ++ y).takeWhile p = x ++ y.takeWhile p := by
  induction x with
  | nil => simp
  | cons c x ih =>
    have hc := h c (List.mem_cons_self c x)
    simp [List.takeWhile_cons, hc,
      ih (fun b hb => h b (List.mem_cons_of_mem c hb))]

/-- `split(":")[-1]` is the maximal colon-free suffix: the text after the
last `:` (the whole text when there is no colon). -/
theorem pyLastField_eq_suffixNoColon (l : List Char) :
    pyLastField l = suffixNoColon l := by
  induction l with
  | nil => rfl
  | cons c ms ih =>
    by_cases hc : c = ':'
    · subst hc
      have h1 : pyLastField (':' :: ms) = pyLastField ms := by
        have hsp : splitOnColon (':' :: ms) = [] :: splitOnColon ms := by
          simp [splitOnColon]
        unfold pyLastField
        rw [hsp, List.getLastD_cons]
      have h2 : suffixNoColon (':' :: ms) = suffixNoColon ms := by
        simp only [suffixNoColon, List.reverse_cons]
        rw [takeWhile_append_one_neg (by decide)]
      rw [h1, h2, ih]
    · by_cases hcol : ':' ∈ ms
      · have hlen := splitOnColon_two hcol
        cases hr : splitOnColon ms with
        | nil => exact absurd hr (splitOnColon_ne_nil ms)
        | cons f rest =>
          cases rest with
          | nil => rw [hr] at hlen; simp at hlen
          | cons g rest2 =>
            have h1 : pyLastField (c :: ms) = pyLastField ms := by
              simp only [pyLastField, splitOnColon, if_neg hc, hr,
                List.getLastD_cons]
            have h2 : suffixNoColon (c :: ms) = suffixNoColon ms := by
              simp only [suffixNoColon, List.reverse_cons]
              rw [takeWhile_append_of_bad
                ⟨':', List.mem_reverse.mpr hcol, by decide⟩]
            rw [h1, h2, ih]
      · have hr := splitOnColon_no_colon hcol
        have h1 : pyLastField (c :: ms) = c :: ms := by
          simp only [pyLastField, splitOnColon, if_neg hc, hr,
            List.getLastD_cons, List.getLastD_nil]
        have h2 : suffixNoColon (c :: ms) = c :: ms := by
          have hgood : ∀ b ∈ ms.reverse, (fun x => decide (x ≠ ':')) b = true := by
            intro b hb
            have hbm : b ∈ ms := List.mem_reverse.mp hb
            have : b ≠ ':' := fun e => hcol (e ▸ hbm)
            exact decide_eq_true this
          simp only [suffixNoColon, List.reverse_cons]
          rw [takeWhile_append_of_good hgood]
          have : List.takeWhile (fun x => decide (x ≠ ':')) [c] = [c] := by
            simp [List.takeWhile_cons, hc]
          rw [this, List.reverse_append]
          simp
        rw [h1, h2]

/-- A subscriber that raises exactly on the message `"m1"`. -/
def failingCb : List Char → Except Unit Unit :=
  fun m => if m = ['m', '1'] then Except.error () else Except.ok ()

/-- Three registered peers; the write to peer 2 raises. -/
def peers3 : List TcpPeer := [⟨1, false⟩, ⟨2, true⟩, ⟨3, false⟩]

/-- C1, counterexample: the bytes of `"é\n"` fed in one call produce the
message `"é"`, but split between the two bytes of `é` they produce no
message at all — each chunk is decoded on its own, so a chunk boundary
inside a multi-byte character changes the framed output. -/
theorem c1_counterexample :
    (framerFeed [] [0xC3, 0xA9, 0x0A]).2 = [['é']] ∧
    (framerFeedMany [] [[0xC3], [0xA9, 0x0A]]).2 = [] ∧
    (framerFeedMany [] [[0xC3], [0xA9, 0x0A]]).2 ≠ (framerFeed [] [0xC3, 0xA9, 0x0A]).2 := by
  refine ⟨?_, ?_, ?_⟩
  · rw [framerFeed_eq]; decide
  · simp only [framerFeedMany, framerFeed_eq]; decide
  · simp only [framerFeedMany, framerFeed_eq]; decide

/-- C1, amended: chunk-boundary independence holds for every chunking whose
chunks are each valid UTF-8 (in particular for any split at character
boundaries, hence for all ASCII traffic): feeding the chunks one call at a
time yields the same final buffer and the same ordered message sequence as
feeding all the bytes in one call. -/
theorem c1_chunk_independence (chunks : List (List Nat))
    (h : ∀ c ∈ chunks, (decodeStrict c).isSome) :
    framerFeedMany [] chunks = framerFeed [] chunks.flatten :=
  framerFeedMany_eq chunks [] (List.not_mem_nil '\n') h

theorem c1_witness :
    (∀ c ∈ [[104, 105, 10], [33]], (decodeStrict c).isSome) ∧
    framerFeedMany [] [[104, 105, 10], [33]] =
      framerFeed [] ([[104, 105, 10], [33]] : List (List Nat)).flatten :=
  ⟨by decide, c1_chunk_independence [[104, 105, 10], [33]] (by decide)⟩

/-- C2, counterexample: on the chunk `b"\xffA\n"` the handler decodes with
`errors='ignore'`, so the invalid byte is dropped and the framed message is
`"A"`; best-effort substitution (`errors='replace'`), which the claim
states, would instead produce `"�A\n"`. -/
theorem c2_counterexample :
    pyDecode [0xFF, 0x41, 0x0A] = (['A', '\n'], true) ∧
    decodeReplace [0xFF, 0x41, 0x0A] = ['�', 'A', '\n'] ∧
    (pyDecode [0xFF, 0x41, 0x0A]).1 ≠ decodeReplace [0xFF, 0x41, 0x0A] ∧
    (framerFeed [] [0xFF, 0x41, 0x0A]).2 = [['A']] := by
  refine ⟨by decide, by decide, by decide, ?_⟩
  rw [framerFeed_eq]
  decide

/-- C2, amended: a chunk that fails strict UTF-8 decoding is decoded with
`errors='ignore'` (invalid bytes dropped, not replaced), the event is
surfaced as a logged warning, nothing is raised, and the rest of the
buffered data is preserved and processed normally. -/
theorem c2_decode_failure (st : List Char) (data : List Nat)
    (h : decodeStrict data = none) :
    pyDecode data = (decodeIgnore data, true) ∧
    notificationFeed okCb st data =
      (((linesRem (st ++ decodeIgnore data)).2,
        framedMsgs (st ++ decodeIgnore data), none), true) := by
  have hp : pyDecode data = (decodeIgnore data, true) := by
    simp [pyDecode, h]
  refine ⟨hp, ?_⟩
  simp [notificationFeed, hp, handlerLoop_ok_eq]

theorem c2_witness :
    decodeStrict [0xFF] = none ∧
    (pyDecode [0xFF] = (decodeIgnore [0xFF], true) ∧
      notificationFeed okCb ['x'] [0xFF] =
        (((linesRem (['x'] ++ decodeIgnore [0xFF])).2,
          framedMsgs (['x'] ++ decodeIgnore [0xFF]), none), true)) :=
  ⟨by decide, c2_decode_failure ['x'] [0xFF] (by decide)⟩

/-- C3, counterexample: with a subscriber that raises on `"m1"`, feeding
`"m1\nm2\nxx"` aborts the pass — the already-framed `"m2"` is never
delivered and the buffer is cleared instead of retaining the unconsumed
remainder `"xx"`. -/
theorem c3_counterexample :
    notificationFeed failingCb [] (bytesOfAscii "m1\nm2\nxx") =
      (([], [['m', '1']], some ()), false) ∧
    (notificationFeed failingCb [] (bytesOfAscii "m1\nm2\nxx")).1.1 ≠ ['x', 'x'] ∧
    ['m', '2'] ∉ (notificationFeed failingCb [] (bytesOfAscii "m1\nm2\nxx")).1.2.1 := by
  have hmain : notificationFeed failingCb [] (bytesOfAscii "m1\nm2\nxx") =
      (([], [['m', '1']], some ()), false) := by
    simp only [notificationFeed, handlerLoop_eq]
    decide
  refine ⟨hmain, ?_, ?_⟩
  · rw [hmain]; decide
  · rw [hmain]; decide

/-- C3, amended: a subscriber exception is caught by the handler; it stops
the framing pass at the failing message (later already-framed messages of
the chunk are not delivered) and the byte buffer is cleared — the
unconsumed remainder is discarded, not preserved.  When no subscriber
raises, the buffer keeps exactly the unconsumed trailing fragment. -/
theorem c3_subscriber_failure (cb : List Char → Except Unit Unit)
    (buf : List Char) :
    handlerLoop cb buf =
      (if ((dispatchAll cb (framedMsgs buf)).2.isSome) then []
       else (linesRem buf).2,
       dispatchAll cb (framedMsgs buf)) :=
  handlerLoop_eq cb buf

/-- C4: each call of the framer yields, in order, the stripped content of
every complete newline-terminated line (lines empty after stripping are
dropped) and buffers the non-terminated remainder; `"\n\n\n"` yields no
message, and `"ab"` then `"cd\n"` yields exactly the message `"abcd"`. -/
theorem c4_extraction_postcondition :
    (∀ (st : List Char) (data : List Nat),
      framerFeed st data =
        ((linesRem (st ++ (pyDecode data).1)).2,
         framedMsgs (st ++ (pyDecode data).1))) ∧
    (framerFeed [] (bytesOfAscii "\n\n\n")).2 = [] ∧
    (framerFeed [] (bytesOfAscii "ab")).1 = ['a', 'b'] ∧
    (framerFeed [] (bytesOfAscii "ab")).2 ++
      (framerFeed (framerFeed [] (bytesOfAscii "ab")).1 (bytesOfAscii "cd\n")).2 =
      [['a', 'b', 'c', 'd']] ∧
    (framerFeed (framerFeed [] (bytesOfAscii "ab")).1 (bytesOfAscii "cd\n")).1 = [] := by
  refine ⟨framerFeed_eq, ?_, ?_, ?_, ?_⟩ <;> (simp only [framerFeed_eq]; decide)

/-- C5, counterexample: with peers 1, 2, 3 registered and the write to peer
2 failing, the broadcast delivers to 1 and 3 — but `send_to_all` leaves
`self.clients` untouched, so an immediately following broadcast still
attempts peer 2: the failed peer is not removed by the broadcast path. -/
theorem c5_counterexample :
    (send_to_all peers3).1 = [1, 3] ∧
    (broadcastOp peers3).1 = peers3 ∧
    2 ∈ (broadcastOp (broadcastOp peers3).1).2.1 := by
  decide

/-- C5, amended: a failing write never prevents delivery to the other
peers (every peer whose connection works receives the message), but the
broadcast itself removes nothing — the registry is returned unchanged, and
a peer disappears from later broadcasts only when its reader thread's
`handle_client` cleanup removes it after the connection drops. -/
theorem c5_broadcast_isolation :
    (∀ (clients : List TcpPeer) (p : TcpPeer),
      p ∈ clients → p.sendFails = false → p.addr ∈ (send_to_all clients).1) ∧
    (∀ clients : List TcpPeer, (broadcastOp clients).1 = clients) ∧
    (∀ (clients : List TcpPeer) (a : Nat),
      (handle_client_cleanup a clients).all (fun c => c.addr ≠ a)) ∧
    (∀ (clients : List TcpPeer) (a : Nat) (p : TcpPeer),
      p ∈ clients → p.addr ≠ a → p ∈ handle_client_cleanup a clients) := by
  refine ⟨?_, fun _ => rfl, ?_, ?_⟩
  · intro clients p hp hok
    induction clients with
    | nil => cases hp
    | cons q qs ih =>
      cases List.mem_cons.mp hp with
      | inl h1 =>
        subst h1
        simp [send_to_all, hok]
      | inr h2 =>
        by_cases hq : q.sendFails <;> simp [send_to_all, hq, ih h2]
  · intro clients a
    rw [List.all_eq_true]
    intro c hc
    have := List.of_mem_filter hc
    simpa using this
  · intro clients a p hp hpa
    exact List.mem_filter.mpr ⟨hp, by simpa using hpa⟩

theorem c5_witness :
    ((⟨3, false⟩ : TcpPeer) ∈ peers3 ∧ (3 : Nat) ∈ (send_to_all peers3).1) ∧
    (⟨1, false⟩ : TcpPeer) ∈ handle_client_cleanup 2 peers3 :=
  ⟨⟨by decide, c5_broadcast_isolation.1 peers3 ⟨3, false⟩ (by decide) rfl⟩,
   c5_broadcast_isolation.2.2.2 peers3 2 ⟨1, false⟩ (by decide) (by decide)⟩

/-- C6: validating the encoded wire text of every command variant
succeeds. -/
theorem c6_roundtrip :
    (∀ numText, pyValidate (absolute_move numText) = some true) ∧
    (∀ numText, pyValidate (relative_move numText) = some true) ∧
    pyValidate reset_position = some true ∧
    pyValidate get_status = some true ∧
    pyValidate toggle_power_saving = some true ∧
    (∀ level : Int, 1 ≤ level → level ≤ 5 →
      ∃ w, set_speed level = Except.ok w ∧ pyValidate w = some true) ∧
    pyValidate get_help = some true := by
  refine ⟨?_, ?_, by decide, by decide, by decide, ?_, by decide⟩
  · intro numText
    exact pyValidate_first numText (by decide) (by decide) (by decide)
  · intro numText
    exact pyValidate_first numText (by decide) (by decide) (by decide)
  · intro level h1 h2
    rw [set_speed, if_pos ⟨h1, h2⟩]
    exact ⟨_, rfl, pyValidate_first _ (by decide) (by decide) (by decide)⟩

theorem c6_witness :
    pyValidate (absolute_move "90.0".data) = some true ∧
    ((1 : Int) ≤ 3 ∧ (3 : Int) ≤ 5 ∧
      ∃ w, set_speed 3 = Except.ok w ∧ pyValidate w = some true) :=
  ⟨c6_roundtrip.1 _,
   by decide, by decide, c6_roundtrip.2.2.2.2.2.1 3 (by decide) (by decide)⟩

/-- C7: `set_speed` accepts exactly the levels 1..5, encoding them as
`v<n>`; outside that range it raises `ValueError` (no wire text is
produced), in particular for 0 and 6. -/
theorem c7_speed_bound :
    (∀ level : Int, 1 ≤ level → level ≤ 5 →
      set_speed level = Except.ok ('v' :: (toString level).data)) ∧
    (∀ level : Int, level < 1 ∨ 5 < level →
      set_speed level = Except.error "速度レベルは1-5の範囲で指定してください".data) ∧
    set_speed 0 = Except.error "速度レベルは1-5の範囲で指定してください".data ∧
    set_speed 6 = Except.error "速度レベルは1-5の範囲で指定してください".data ∧
    set_speed 1 = Except.ok ['v', '1'] ∧
    set_speed 5 = Except.ok ['v', '5'] := by
  refine ⟨?_, ?_, by rfl, by rfl, by rfl, by rfl⟩
  · intro level h1 h2
    rw [set_speed, if_pos ⟨h1, h2⟩]
  · intro level h
    rw [set_speed, if_neg (by omega)]

theorem c7_witness :
    ((1 : Int) ≤ 2 ∧ (2 : Int) ≤ 5 ∧
      set_speed 2 = Except.ok ('v' :: (toString (2 : Int)).data)) ∧
    (((0 : Int) < 1 ∨ (5 : Int) < 0) ∧
      set_speed 0 = Except.error "速度レベルは1-5の範囲で指定してください".data) :=
  ⟨⟨by decide, by decide, c7_speed_bound.1 2 (by decide) (by decide)⟩,
   ⟨Or.inl (by decide), c7_speed_bound.2.1 0 (Or.inl (by decide))⟩⟩

/-- C8: a `send_command` while not connected returns `False` immediately —
no validation outcome matters, nothing is written to the transport, and
the client state (connection flag, client handle, receive buffer) is
returned unchanged. -/
theorem c8_send_not_connected (st : BLEClientState) (command : List Char)
    (writeOk : Bool) (h : st.is_connected = false) :
    send_command st command writeOk = (st, false, []) := by
  rw [send_command, if_pos (Or.inl (by simp [h]))]

theorem c8_witness :
    (⟨false, false, []⟩ : BLEClientState).is_connected = false ∧
    send_command ⟨false, false, []⟩ ['a', '9', '0'] true =
      (⟨false, false, []⟩, false, []) :=
  ⟨rfl, c8_send_not_connected ⟨false, false, []⟩ ['a', '9', '0'] true rfl⟩

/-- C9: a line with no degree marker yields no value; the `split(":")[-1]`
step parses exactly the text after the last colon; and the documented
examples hold: `"angle: 123.4 deg"` yields 123.4, `"status:45.0°"` yields
45.0. -/
theorem c9_angle_extraction :
    (∀ message, hasSub "deg".data message = false →
      hasSub "°".data message = false →
      extract_angle_from_message message = none) ∧
    (∀ l, pyLastField l = suffixNoColon l) ∧
    extract_angle_from_message "angle: 123.4 deg".data = some (123.4 : ℚ) ∧
    extract_angle_from_message "status:45.0°".data = some (45.0 : ℚ) := by
  refine ⟨?_, pyLastField_eq_suffixNoColon, ?_, ?_⟩
  · intro message h1 h2
    simp [extract_angle_from_message, h1, h2]
  · have hd : hasSub "deg".data "angle: 123.4 deg".data = true := by decide
    have hplumb :
        pyStrip (pyLastField (beforeFirst "deg".data "angle: 123.4 deg".data)) =
          "123.4".data := by decide
    have hparts : pyFloatParts "123.4".data = some (1234, 10) := by decide
    unfold extract_angle_from_message
    rw [hd, if_pos rfl, hplumb]
    unfold pyFloat
    rw [hparts, Option.map_some']
    norm_num [Rat.mkRat_eq_div]
  · have hd : hasSub "deg".data "status:45.0°".data = false := by decide
    have hdg : hasSub "°".data "status:45.0°".data = true := by decide
    have hplumb :
        pyStrip (pyLastField (beforeFirst "°".data "status:45.0°".data)) =
          "45.0".data := by decide
    have hparts : pyFloatParts "45.0".data = some (450, 10) := by decide
    unfold extract_angle_from_message
    rw [hd, hdg, if_pos rfl, hplumb]
    unfold pyFloat
    rw [hparts, Option.map_some']
    norm_num [Rat.mkRat_eq_div]

theorem c9_witness :
    hasSub "deg".data "position 77".data = false ∧
    hasSub "°".data "position 77".data = false ∧
    extract_angle_from_message "position 77".data = none :=
  ⟨by decide, by decide, c9_angle_extraction.1 _ (by decide) (by decide)⟩

/-- C10: the validator is total — the emptiness guard runs before the
first-character indexing, so the `[0]` index is always in bounds and
`_validate_command` returns a boolean for every input string. -/
theorem c10_validate_total (command : List Char) :
    (pyValidate command).isSome = true := by
  by_cases hg : command.isEmpty || (pyStrip command).isEmpty
  · simp [pyValidate, hg]
  · have h2 : ¬ (pyStrip command).isEmpty := by
      intro hx
      exact hg (by simp [hx])
    have hne := pyLower_strip_ne_nil h2
    cases hpp : (pyStrip (pyLower command)) with
    | nil => exact absurd hpp hne
    | cons a l => simp [pyValidate, hg, hpp]
